import Mathlib

/-!
Shallow embedding of `better_bitset::BitSet<N>` from `src/include/better_bitset.hpp`.

The container stores `NUM_CHUNKS = (N + 63) / 64` words of type `Inner_t`
(`uint8/16/32/64` depending on `N`).  We model the storage as a `List Nat`
whose elements are bounded by `2 ^ innerW N` (predicate `WF`), machine
arithmetic being rendered with explicit `% 2 ^ w` truncation where the C++
code truncates.  All definitions in the `BitSet` namespace are translated
line by line from the source; `bitAt` is the mathematical reading of
logical bit `i` of the storage used to state functional correctness.
-/

/-- Width in bits of `Inner_t`: `uint64` when `N > 32`, `uint32` when `N > 16`,
`uint16` when `N > 8`, else `uint8` (source lines 31-33). -/
def innerW (N : Nat) : Nat :=
  if N > 32 then 64 else if N > 16 then 32 else if N > 8 then 16 else 8

/-- Number of storage words, `(N + 63) / 64` (source line 37). -/
def NUM_CHUNKS (N : Nat) : Nat := (N + 63) / 64

/-- Mask of live bits of the final word, `~(~1ull << ((N - 1ull) % 64ull))`
computed in 64-bit unsigned arithmetic (source line 35). -/
def LAST_MASK (N : Nat) : Nat :=
  (2 ^ 64 - 1) - ((2 ^ 64 - 2) <<< ((N - 1) % 64)) % 2 ^ 64

/-- Number of live (non-padding) bit positions in the final storage word,
`((N - 1) mod 64) + 1` (spec section 3). -/
def lastLive (N : Nat) : Nat := (N - 1) % 64 + 1

/-- Model of `std::countr_zero` on a `w`-bit word: length of the run of zero
bits starting at the least significant end; returns `w` on the value `0`. -/
def countr_zero : Nat → Nat → Nat
  | 0, _ => 0
  | w + 1, v => if v % 2 = 1 then 0 else countr_zero w (v / 2) + 1

/-- Model of `std::countr_one` on a `w`-bit word: length of the run of one
bits starting at the least significant end. -/
def countr_one : Nat → Nat → Nat
  | 0, _ => 0
  | w + 1, v => if v % 2 = 0 then 0 else countr_one w (v / 2) + 1

/-- Model of `std::popcount` on a `w`-bit word: number of set bits.  The
fuel `w` is the word width, enough for any value below `2 ^ w`. -/
def popcount : Nat → Nat → Nat
  | 0, _ => 0
  | w + 1, v => v % 2 + popcount w (v / 2)

/-- Model of `std::bit_width` on a `w`-bit word: zero on zero, otherwise one
plus the position of the highest set bit.  The fuel `w` is the word width,
enough for any value below `2 ^ w`. -/
def bit_width : Nat → Nat → Nat
  | 0, _ => 0
  | w + 1, v => if v = 0 then 0 else bit_width w (v / 2) + 1

/-- The generic scan `BitSet::first_func_impl` (source lines 42-52): walk the
words accumulating each word-local run length `f chunk`; return the
accumulated position as soon as a run is shorter than the word width `W`,
and `N` when every word is exhausted. -/
def firstAux (N W : Nat) (f : Nat → Nat) : List Nat → Nat → Nat
  | [], _ => N
  | c :: rest, pos =>
    if f c ≠ W then pos + f c else firstAux N W f rest (pos + f c)

namespace BitSet

/-- The source `operator[]` (source lines 197-207).  For `N > 64` the code
returns `static_cast<bool>(m_storage[chunk] >> shift)` (no `& 0x1`); for
`N ≤ 64` it returns `(m_storage[0] >> pos) & 0x1`. -/
def opIndex (N : Nat) (s : List Nat) (pos : Nat) : Bool :=
  if N > 64 then
    ((s.getD (pos / 64) 0) >>> (pos % 64)) != 0
  else
    (((s.getD 0 0) >>> pos) &&& 1) != 0

/-- The source `test`, which simply calls `operator[]` (source lines 112-115). -/
def test (N : Nat) (s : List Nat) (pos : Nat) : Bool := opIndex N s pos

/-- The source `all` (source lines 71-78): every word except the last equals
the maximum of `Inner_t` and the last word equals `LAST_MASK`. -/
def all (N : Nat) (s : List Nat) : Bool :=
  (s.dropLast.all fun v => v == 2 ^ innerW N - 1) && (s.getLastD 0 == LAST_MASK N)

/-- The source `any` (source lines 80-84): some word is nonzero. -/
def any (N : Nat) (s : List Nat) : Bool :=
  s.any fun v => v != 0

/-- The source `none` (source lines 86-91): every word is zero. -/
def none (N : Nat) (s : List Nat) : Bool :=
  s.all fun v => v == 0

/-- The source `count` (source lines 93-97): accumulated popcount. -/
def count (N : Nat) (s : List Nat) : Nat :=
  s.foldl (fun acc v => acc + popcount (innerW N) v) 0

/-- The source `first_one` (source lines 99-102). -/
def first_one (N : Nat) (s : List Nat) : Nat :=
  firstAux N (innerW N) (countr_zero (innerW N)) s 0

/-- The source `first_zero` (source lines 104-107). -/
def first_zero (N : Nat) (s : List Nat) : Nat :=
  firstAux N (innerW N) (countr_one (innerW N)) s 0

/-- The source bulk `set()` (source lines 124-130): every word except the
last becomes the maximum of `Inner_t`, the last becomes `LAST_MASK`. -/
def setAll (N : Nat) (s : List Nat) : List Nat :=
  List.replicate (NUM_CHUNKS N - 1) (2 ^ innerW N - 1) ++ [LAST_MASK N]

/-- The source single-bit `reset(pos)` (source lines 163-178).  For `N > 64`
the clearing mask is additionally intersected with `LAST_MASK` when the
target word is the final one; for `N ≤ 64` it always is.  The C++
`~(1ull << shift)` is 64-bit, hence `2 ^ 64 - 1 - (1 <<< shift)`. -/
def reset (N : Nat) (s : List Nat) (pos : Nat) : List Nat :=
  if N > 64 then
    if pos / 64 = NUM_CHUNKS N - 1 then
      s.set (pos / 64)
        ((s.getD (pos / 64) 0) &&& (((2 ^ 64 - 1) - (1 <<< (pos % 64))) &&& LAST_MASK N))
    else
      s.set (pos / 64)
        ((s.getD (pos / 64) 0) &&& ((2 ^ 64 - 1) - (1 <<< (pos % 64))))
  else
    s.set 0 ((s.getD 0 0) &&& (((2 ^ 64 - 1) - (1 <<< pos)) &&& LAST_MASK N))

/-- The source single-bit `set(pos, value)` (source lines 132-146): on
`value = false` it delegates to `reset(pos)`; otherwise it ORs the bit into
its word, truncating `1ull << pos` to `Inner_t` in the `N ≤ 64` branch. -/
def set (N : Nat) (s : List Nat) (pos : Nat) (value : Bool) : List Nat :=
  if value = false then
    reset N s pos
  else if N > 64 then
    s.set (pos / 64) ((s.getD (pos / 64) 0) ||| (1 <<< (pos % 64)))
  else
    s.set 0 ((s.getD 0 0) ||| ((1 <<< pos) % 2 ^ innerW N))

/-- Loop body of the source `flip()` (source lines 148-154), carrying the
word index `i`: every word with index below `NUM_CHUNKS - 1` is complemented;
the word at index `NUM_CHUNKS - 1` is complemented and masked with
`LAST_MASK`.  Complement of a word promoted to 64-bit arithmetic is
`2 ^ 64 - 1 - v`. -/
def flipGo (N : Nat) (i : Nat) : List Nat → List Nat
  | [] => []
  | v :: rest =>
    (if i = NUM_CHUNKS N - 1 then ((2 ^ 64 - 1) - v) &&& LAST_MASK N
     else (2 ^ 64 - 1) - v) :: flipGo N (i + 1) rest

/-- The source `flip()` (source lines 148-154). -/
def flip (N : Nat) (s : List Nat) : List Nat := flipGo N 0 s

/-- The source bulk `reset()` (source lines 156-161): every word zeroed. -/
def resetAll (N : Nat) (s : List Nat) : List Nat :=
  s.map fun _ => 0

/-- Default construction (source line 54): value-initialized storage. -/
def mkDefault (N : Nat) : List Nat := List.replicate (NUM_CHUNKS N) 0

/-- The debug assertion of the `N > 64` raw-storage constructor (source
line 59): `bit_width(storage[NUM_CHUNKS - 1]) <= LAST_MASK`.  Returns `true`
when the assertion passes (does not fire). -/
def ctorAssertMulti (N : Nat) (ws : List Nat) : Bool :=
  decide (bit_width 64 (ws.getD (NUM_CHUNKS N - 1) 0) ≤ LAST_MASK N)

/-- The debug assertion of the `N ≤ 64` raw-storage constructor (source
line 65): `bit_width(storage) <= N`.  Returns `true` when the assertion
passes (does not fire). -/
def ctorAssertSingle (N : Nat) (v : Nat) : Bool :=
  decide (bit_width (innerW N) v ≤ N)

end BitSet

/-- Mathematical reading of logical bit `i` of the storage: bit `i % 64` of
word `i / 64` (spec section 3; for `N ≤ 64` there is a single word and every
live index `i` satisfies `i < 64`, so the same formula applies). -/
def bitAt (s : List Nat) (i : Nat) : Bool :=
  (s.getD (i / 64) 0).testBit (i % 64)

/-- Well-formedness forced by the C++ types: exactly `NUM_CHUNKS` words, each
a value of `Inner_t`. -/
def WF (N : Nat) (s : List Nat) : Prop :=
  s.length = NUM_CHUNKS N ∧ ∀ x ∈ s, x < 2 ^ innerW N

/-- Canonical zero-padding invariant (spec section 3): every padding bit of
the final word is zero, i.e. the final word is below `2 ^ lastLive N`. -/
def Canonical (N : Nat) (s : List Nat) : Prop :=
  s.getLastD 0 < 2 ^ lastLive N

instance (N : Nat) (s : List Nat) : Decidable (WF N s) := by
  unfold WF; infer_instance

instance (N : Nat) (s : List Nat) : Decidable (Canonical N s) := by
  unfold Canonical; infer_instance

-- Sanity checks mirroring the static_assert block of the source (lines 229-266).
example : BitSet.opIndex 8 [53] 0 = true := by decide
example : BitSet.opIndex 8 [53] 1 = false := by decide
example : BitSet.test 8 [53] 1 = false := by decide
example : BitSet.all 8 [53] = false := by decide
example : BitSet.any 8 [53] = true := by decide
example : BitSet.none 8 [53] = false := by decide
example : BitSet.count 8 [53] = 4 := by decide
example : BitSet.first_one 8 [53] = 0 := by decide
example : BitSet.first_zero 8 [53] = 1 := by decide
example : BitSet.all 8 [255] = true := by decide
example : BitSet.count 8 [255] = 8 := by decide
example : BitSet.first_zero 8 [255] = 8 := by decide
example : BitSet.all 65 [0xffffffffffffffff, 1] = true := by decide
example : BitSet.count 65 [0xffffffffffffffff, 1] = 65 := by decide
example : BitSet.first_zero 65 [0xffffffffffffffff, 1] = 65 := by decide
example : BitSet.none 70 (BitSet.mkDefault 70) = true := by decide
example : BitSet.count 70 (BitSet.mkDefault 70) = 0 := by decide
example : BitSet.first_one 70 (BitSet.mkDefault 70) = 70 := by decide
example : BitSet.first_zero 70 (BitSet.mkDefault 70) = 0 := by decide
example : BitSet.all 129 [0, 0, 1] = false := by decide
example : BitSet.any 129 [0, 0, 1] = true := by decide
example : BitSet.count 129 [0, 0, 1] = 1 := by decide
example : BitSet.first_one 129 [0, 0, 1] = 128 := by decide
example : BitSet.first_zero 129 [0, 0, 1] = 0 := by decide

/-! Arithmetic facts about the derived constants. -/

theorem innerW_le_64 (N : Nat) : innerW N ≤ 64 := by
  unfold innerW; split <;> [omega; split] <;> [omega; split] <;> omega

theorem innerW_pos (N : Nat) : 0 < innerW N := by
  unfold innerW; split <;> [omega; split] <;> [omega; split] <;> omega

theorem innerW_eq_64 {N : Nat} (h : 64 < N) : innerW N = 64 := by
  unfold innerW; split <;> omega

theorem le_innerW {N : Nat} (h : N ≤ 64) : N ≤ innerW N := by
  unfold innerW; split <;> [omega; split] <;> [omega; split] <;> omega

theorem NUM_CHUNKS_pos {N : Nat} (h : 0 < N) : 0 < NUM_CHUNKS N := by
  unfold NUM_CHUNKS; omega

theorem NUM_CHUNKS_eq_one {N : Nat} (h0 : 0 < N) (h : N ≤ 64) : NUM_CHUNKS N = 1 := by
  unfold NUM_CHUNKS; omega

theorem NUM_CHUNKS_ge_two {N : Nat} (h : 64 < N) : 2 ≤ NUM_CHUNKS N := by
  unfold NUM_CHUNKS; omega

theorem lastLive_pos (N : Nat) : 0 < lastLive N := by
  unfold lastLive; omega

theorem lastLive_le_64 (N : Nat) : lastLive N ≤ 64 := by
  unfold lastLive; omega

theorem lastLive_eq {N : Nat} (h0 : 0 < N) (h : N ≤ 64) : lastLive N = N := by
  unfold lastLive; omega

theorem lastLive_le_innerW {N : Nat} (h0 : 0 < N) : lastLive N ≤ innerW N := by
  rcases le_or_lt N 64 with h | h
  · rw [lastLive_eq h0 h]; exact le_innerW h
  · rw [innerW_eq_64 h]; exact lastLive_le_64 N

/-- Chunk geometry: the words below the final one carry 64 bits each and the
final word carries `lastLive N` live bits, covering exactly `N` positions. -/
theorem chunks_cover {N : Nat} (h : 0 < N) :
    64 * (NUM_CHUNKS N - 1) + lastLive N = N := by
  unfold NUM_CHUNKS lastLive; omega

/-- The literal 64-bit computation of `LAST_MASK` yields the low
`lastLive N` bits set. -/
theorem LAST_MASK_eq (N : Nat) : LAST_MASK N = 2 ^ lastLive N - 1 := by
  unfold LAST_MASK lastLive
  have hk64 : (N - 1) % 64 < 64 := by omega
  have ha : 0 < 2 ^ ((N - 1) % 64) := Nat.two_pow_pos _
  have h2a : 2 * 2 ^ ((N - 1) % 64) ≤ 2 ^ 64 := by
    have : 2 ^ ((N - 1) % 64 + 1) ≤ 2 ^ 64 := Nat.pow_le_pow_right (by omega) (by omega)
    rw [pow_succ] at this; omega
  rw [Nat.shiftLeft_eq]
  have hs : 2 ^ ((N - 1) % 64 + 1) = 2 * 2 ^ ((N - 1) % 64) := by
    rw [pow_succ]; ring
  omega

theorem LAST_MASK_pos (N : Nat) : 0 < LAST_MASK N := by
  rw [LAST_MASK_eq]
  have h1 : 2 ^ 1 ≤ 2 ^ lastLive N :=
    Nat.pow_le_pow_right (by omega) (lastLive_pos N)
  simp at h1; omega

theorem LAST_MASK_lt (N : Nat) : LAST_MASK N < 2 ^ lastLive N := by
  rw [LAST_MASK_eq]
  have := Nat.two_pow_pos (lastLive N); omega

/-! Facts about the run-length counters. -/

theorem countr_zero_le (w : Nat) : ∀ v, countr_zero w v ≤ w := by
  induction w with
  | zero => intro v; simp [countr_zero]
  | succ w ih =>
    intro v
    unfold countr_zero
    split
    · omega
    · have := ih (v / 2); omega

theorem countr_zero_zero (w : Nat) : countr_zero w 0 = w := by
  induction w with
  | zero => rfl
  | succ w ih => unfold countr_zero; simp [ih]

theorem countr_zero_lt (w : Nat) :
    ∀ v, v ≠ 0 → v < 2 ^ w → countr_zero w v < w := by
  induction w with
  | zero => intro v hv hb; simp [pow_zero] at hb; omega
  | succ w ih =>
    intro v hv hb
    unfold countr_zero
    split
    · omega
    · have hne : v / 2 ≠ 0 := by rename_i h; omega
      have hlt : v / 2 < 2 ^ w := by
        rw [pow_succ] at hb; omega
      have := ih (v / 2) hne hlt; omega

theorem testBit_lt_countr_zero (w : Nat) :
    ∀ v j, j < countr_zero w v → v.testBit j = false := by
  induction w with
  | zero => intro v j h; simp [countr_zero] at h
  | succ w ih =>
    intro v j h
    unfold countr_zero at h
    split at h
    · omega
    · rename_i hodd
      cases j with
      | zero => simpa [Nat.testBit_zero] using hodd
      | succ j => rw [Nat.testBit_add_one]; exact ih (v / 2) j (by omega)

theorem testBit_at_countr_zero (w : Nat) :
    ∀ v, countr_zero w v < w → v.testBit (countr_zero w v) = true := by
  induction w with
  | zero => intro v h; omega
  | succ w ih =>
    intro v h
    unfold countr_zero at h ⊢
    by_cases hodd : v % 2 = 1
    · simp only [if_pos hodd]
      simpa [Nat.testBit_zero] using hodd
    · simp only [if_neg hodd] at h ⊢
      rw [Nat.testBit_add_one]
      exact ih (v / 2) (by omega)

theorem countr_zero_le_of_testBit (w v j : Nat) (h : v.testBit j = true) :
    countr_zero w v ≤ j := by
  by_contra hlt
  rw [testBit_lt_countr_zero w v j (by omega)] at h
  simp at h

theorem countr_one_le (w : Nat) : ∀ v, countr_one w v ≤ w := by
  induction w with
  | zero => intro v; simp [countr_one]
  | succ w ih =>
    intro v
    unfold countr_one
    split
    · omega
    · have := ih (v / 2); omega

theorem countr_one_zero (w : Nat) : countr_one w 0 = 0 := by
  cases w <;> simp [countr_one]

theorem testBit_lt_countr_one (w : Nat) :
    ∀ v j, j < countr_one w v → v.testBit j = true := by
  induction w with
  | zero => intro v j h; simp [countr_one] at h
  | succ w ih =>
    intro v j h
    unfold countr_one at h
    split at h
    · omega
    · rename_i heven
      cases j with
      | zero => simp [Nat.testBit_zero]; omega
      | succ j => rw [Nat.testBit_add_one]; exact ih (v / 2) j (by omega)

theorem testBit_at_countr_one (w : Nat) :
    ∀ v, countr_one w v < w → v.testBit (countr_one w v) = false := by
  induction w with
  | zero => intro v h; omega
  | succ w ih =>
    intro v h
    unfold countr_one at h ⊢
    by_cases heven : v % 2 = 0
    · simp only [if_pos heven]
      simp [Nat.testBit_zero]; omega
    · simp only [if_neg heven] at h ⊢
      rw [Nat.testBit_add_one]
      exact ih (v / 2) (by omega)

theorem countr_one_le_of_testBit (w v j : Nat) (h : v.testBit j = false) :
    countr_one w v ≤ j := by
  by_contra hlt
  rw [testBit_lt_countr_one w v j (by omega)] at h
  simp at h

theorem countr_one_eq_w (w : Nat) :
    ∀ v, (∀ j, j < w → v.testBit j = true) → countr_one w v = w := by
  intro v h
  by_contra hne
  have hlt : countr_one w v < w := by have := countr_one_le w v; omega
  have := testBit_at_countr_one w v hlt
  rw [h _ hlt] at this
  simp at this

theorem countr_zero_eq_w (w : Nat) :
    ∀ v, (∀ j, j < w → v.testBit j = false) → countr_zero w v = w := by
  intro v h
  by_contra hne
  have hlt : countr_zero w v < w := by have := countr_zero_le w v; omega
  have := testBit_at_countr_zero w v hlt
  rw [h _ hlt] at this
  simp at this

/-! List access helpers. -/

theorem getD_mem (s : List Nat) (k d : Nat) (h : k < s.length) : s.getD k d ∈ s := by
  induction s generalizing k with
  | nil => simp at h
  | cons a t ih =>
    cases k with
    | zero => simp
    | succ k =>
      simp only [List.getD_cons_succ]
      exact List.mem_cons_of_mem a (ih k (by simpa using h))

theorem getD_set_eq (s : List Nat) (i v d : Nat) (h : i < s.length) :
    (s.set i v).getD i d = v := by
  induction s generalizing i with
  | nil => simp at h
  | cons a t ih =>
    cases i with
    | zero => rfl
    | succ i => simpa using ih i (by simpa using h)

theorem getD_set_ne (s : List Nat) (i k v d : Nat) (h : i ≠ k) :
    (s.set i v).getD k d = s.getD k d := by
  induction s generalizing i k with
  | nil => rfl
  | cons a t ih =>
    cases i with
    | zero =>
      cases k with
      | zero => omega
      | succ k => rfl
    | succ i =>
      cases k with
      | zero => rfl
      | succ k => simpa using ih i k (by omega)

theorem getD_replicate (n a k d : Nat) (h : k < n) :
    (List.replicate n a).getD k d = a := by
  induction n generalizing k with
  | zero => omega
  | succ n ih =>
    cases k with
    | zero => rfl
    | succ k => simpa [List.replicate] using ih k (by omega)

theorem getD_replicate_append (n a b k d : Nat) (h : k < n) :
    (List.replicate n a ++ [b]).getD k d = a := by
  induction n generalizing k with
  | zero => omega
  | succ n ih =>
    cases k with
    | zero => rfl
    | succ k => simpa [List.replicate] using ih k (by omega)

theorem getD_replicate_append_last (n a b d : Nat) :
    (List.replicate n a ++ [b]).getD n d = b := by
  induction n with
  | zero => rfl
  | succ n ih => simpa [List.replicate] using ih

theorem getD_map_zero (s : List Nat) (k : Nat) :
    (s.map fun _ => 0).getD k 0 = 0 := by
  induction s generalizing k with
  | nil => rfl
  | cons a t ih =>
    cases k with
    | zero => rfl
    | succ k => simpa using ih k

theorem getLastD_eq_getD (s : List Nat) (d : Nat) :
    s.getLastD d = s.getD (s.length - 1) d := by
  induction s generalizing d with
  | nil => rfl
  | cons a t ih =>
    cases t with
    | nil => rfl
    | cons b t' =>
      rw [List.getLastD_cons]
      rw [ih]
      simp

theorem getD_dropLast (s : List Nat) (k d : Nat) (h : k < s.length - 1) :
    s.dropLast.getD k d = s.getD k d := by
  induction s generalizing k with
  | nil => rfl
  | cons a t ih =>
    cases t with
    | nil => simp at h
    | cons b t' =>
      cases k with
      | zero => rfl
      | succ k =>
        have := ih (k := k) (by simp at h ⊢; omega)
        simpa using this

/-! Behaviour of the generic scan. -/

theorem firstAux_eq_N (N W : Nat) (f : Nat → Nat) (s : List Nat) (pos : Nat)
    (h : ∀ c ∈ s, f c = W) : firstAux N W f s pos = N := by
  induction s generalizing pos with
  | nil => rfl
  | cons c rest ih =>
    have hc := h c (List.mem_cons_self c rest)
    simp only [firstAux, hc, ne_eq, not_true_eq_false, if_false]
    exact ih _ fun x hx => h x (List.mem_cons_of_mem c hx)

theorem firstAux_found (N W : Nat) (f : Nat → Nat) (s : List Nat) (pos : Nat)
    (h : ∃ c ∈ s, f c ≠ W) :
    ∃ k, k < s.length ∧ f (s.getD k 0) ≠ W ∧ (∀ j, j < k → f (s.getD j 0) = W) ∧
      firstAux N W f s pos = pos + (W * k + f (s.getD k 0)) := by
  induction s generalizing pos with
  | nil => simp at h
  | cons c rest ih =>
    by_cases hc : f c = W
    · have h' : ∃ x ∈ rest, f x ≠ W := by
        obtain ⟨x, hx, hfx⟩ := h
        rcases List.mem_cons.mp hx with rfl | hx
        · exact absurd hc hfx
        · exact ⟨x, hx, hfx⟩
      obtain ⟨k, hk, hne, hbefore, heq⟩ := ih (pos + W) h'
      refine ⟨k + 1, by simpa using hk, by simpa using hne, ?_, ?_⟩
      · intro j hj
        cases j with
        | zero => simpa using hc
        | succ j => simpa using hbefore j (by omega)
      · simp only [firstAux, hc, ne_eq, not_true_eq_false, if_false]
        rw [heq]
        have hms : W * (k + 1) = W * k + W := by ring
        simp only [List.getD_cons_succ]
        omega
    · refine ⟨0, by simp, by simpa using hc, by omega, ?_⟩
      simp only [firstAux, ne_eq, hc, not_false_eq_true, if_true]
      simp

/-- Every index decomposes into a chunk index and a shift. -/
theorem index_decomp {N : Nat} (i : Nat) (hN : 0 < N) (hi : i < N) :
    ∃ k j, i = innerW N * k + j ∧ j < innerW N ∧ k < NUM_CHUNKS N := by
  refine ⟨i / innerW N, i % innerW N, ?_, ?_, ?_⟩
  · exact (Nat.div_add_mod i (innerW N)).symm ▸ rfl
  · exact Nat.mod_lt i (innerW_pos N)
  · rcases le_or_lt N 64 with h | h
    · have h1 : NUM_CHUNKS N = 1 := NUM_CHUNKS_eq_one hN h
      have h2 : N ≤ innerW N := le_innerW h
      rw [h1]
      exact Nat.div_lt_of_lt_mul (by
        have := innerW_pos N
        calc i < N := hi
        _ ≤ innerW N := h2
        _ ≤ innerW N * 1 := by omega)
    · have hW : innerW N = 64 := innerW_eq_64 h
      have hcover := chunks_cover hN
      have hL := lastLive_le_64 N
      rw [hW]
      have : i < 64 * NUM_CHUNKS N := by omega
      omega

/-- Reading a decomposed index through `bitAt` lands on the expected word. -/
theorem bitAt_decomp (N : Nat) (s : List Nat) (k j : Nat) (hN : 0 < N)
    (hlen : s.length = NUM_CHUNKS N) (hk : k < s.length) (hj : j < innerW N) :
    bitAt s (innerW N * k + j) = (s.getD k 0).testBit j := by
  unfold bitAt
  rcases le_or_lt N 64 with h | h
  · have h1 : NUM_CHUNKS N = 1 := NUM_CHUNKS_eq_one hN h
    have hk0 : k = 0 := by omega
    subst hk0
    have hj64 : j < 64 := lt_of_lt_of_le hj (innerW_le_64 N)
    have hd : (innerW N * 0 + j) / 64 = 0 := by
      simp only [Nat.mul_zero, Nat.zero_add]; omega
    have hm : (innerW N * 0 + j) % 64 = j := by
      simp only [Nat.mul_zero, Nat.zero_add]; omega
    rw [hd, hm]
  · have hW : innerW N = 64 := innerW_eq_64 h
    rw [hW] at hj ⊢
    have hd : (64 * k + j) / 64 = k := by omega
    have hm : (64 * k + j) % 64 = j := by omega
    rw [hd, hm]

/-! Correctness of the scans. -/

theorem none_iff_all_zero (N : Nat) (s : List Nat) :
    BitSet.none N s = true ↔ ∀ c ∈ s, c = 0 := by
  simp [BitSet.none, List.all_eq_true]

theorem canonical_last {N : Nat} {s : List Nat} (hlen : s.length = NUM_CHUNKS N)
    (hc : Canonical N s) : s.getD (NUM_CHUNKS N - 1) 0 < 2 ^ lastLive N := by
  unfold Canonical at hc
  rw [getLastD_eq_getD, hlen] at hc
  exact hc

/-- C4 helper, part 1: when every word is zero the scan returns `N`. -/
theorem first_one_eq_N_of_zero (N : Nat) (s : List Nat)
    (hz : ∀ c ∈ s, c = 0) : BitSet.first_one N s = N :=
  firstAux_eq_N _ _ _ _ _ fun c hcs => by rw [hz c hcs]; exact countr_zero_zero _

/-- C4 helper, part 2: when some word is nonzero the scan returns the least
set index, which lies below `N` under the canonical invariant. -/
theorem first_one_found (N : Nat) (s : List Nat) (hN : 0 < N)
    (hwf : WF N s) (hc : Canonical N s) (hex : ∃ c ∈ s, c ≠ 0) :
    BitSet.first_one N s < N ∧ bitAt s (BitSet.first_one N s) = true ∧
      ∀ j, j < BitSet.first_one N s → bitAt s j = false := by
  obtain ⟨hlen, hbound⟩ := hwf
  have hWpos : 0 < innerW N := innerW_pos N
  obtain ⟨c0, hc0s, hc0⟩ := hex
  have hfex : ∃ c ∈ s, countr_zero (innerW N) c ≠ innerW N := by
    refine ⟨c0, hc0s, ?_⟩
    have := countr_zero_lt (innerW N) c0 hc0 (hbound c0 hc0s)
    omega
  obtain ⟨k, hk, hne, hbefore, heq⟩ :=
    firstAux_found N (innerW N) (countr_zero (innerW N)) s 0 hfex
  have ht_le := countr_zero_le (innerW N) (s.getD k 0)
  set t := countr_zero (innerW N) (s.getD k 0) with ht_def
  have ht : t < innerW N := by omega
  have hres : BitSet.first_one N s = innerW N * k + t := by
    have h0 : BitSet.first_one N s = 0 + (innerW N * k + t) := heq
    omega
  have hbt : (s.getD k 0).testBit t = true := by
    rw [ht_def]; exact testBit_at_countr_zero _ _ (by omega)
  have hltN : BitSet.first_one N s < N := by
    rw [hres]
    rcases Nat.lt_or_ge k (NUM_CHUNKS N - 1) with hkl | hkg
    · have h64 : 64 < N := by
        by_contra hcon; push_neg at hcon
        have := NUM_CHUNKS_eq_one hN hcon; omega
      have hW64 : innerW N = 64 := innerW_eq_64 h64
      have hcover := chunks_cover hN
      have hLpos := lastLive_pos N
      rw [hW64] at ht ⊢
      omega
    · have hkeq : k = NUM_CHUNKS N - 1 := by rw [hlen] at hk; omega
      have hlastv : s.getD k 0 < 2 ^ lastLive N := by
        rw [hkeq]; exact canonical_last hlen hc
      have hge := Nat.testBit_implies_ge hbt
      have htL : t < lastLive N := by
        by_contra hca; push_neg at hca
        have : 2 ^ lastLive N ≤ 2 ^ t := Nat.pow_le_pow_right (by omega) hca
        omega
      rcases le_or_lt N 64 with hsm | hbig
      · have h1 := NUM_CHUNKS_eq_one hN hsm
        have hLN := lastLive_eq hN hsm
        have hk0 : k = 0 := by omega
        rw [hk0, Nat.mul_zero, Nat.zero_add]; omega
      · have hW64 : innerW N = 64 := innerW_eq_64 hbig
        have hcover := chunks_cover hN
        rw [hW64]
        rw [hkeq]
        omega
  refine ⟨hltN, ?_, ?_⟩
  · rw [hres]
    rw [bitAt_decomp N s k t hN hlen hk ht]
    exact hbt
  · intro j hj
    rw [hres] at hj
    have hj' : j % innerW N < innerW N := Nat.mod_lt _ hWpos
    have hjeq : j = innerW N * (j / innerW N) + j % innerW N :=
      (Nat.div_add_mod j (innerW N)).symm
    have hk'le : j / innerW N ≤ k := by
      by_contra hgt; push_neg at hgt
      have h1 : innerW N * (k + 1) ≤ innerW N * (j / innerW N) :=
        Nat.mul_le_mul_left _ hgt
      have h2 : innerW N * (k + 1) = innerW N * k + innerW N := by ring
      omega
    rcases Nat.lt_or_ge (j / innerW N) k with hlt | hge2
    · rw [hjeq, bitAt_decomp N s (j / innerW N) (j % innerW N) hN hlen (by omega) hj']
      have hbef := hbefore _ hlt
      exact testBit_lt_countr_zero _ _ _ (by rw [hbef]; exact hj')
    · have hkk : j / innerW N = k := by omega
      have hjlt : j % innerW N < t := by
        rw [hkk] at hjeq; omega
      rw [hjeq, hkk, bitAt_decomp N s k (j % innerW N) hN hlen hk hj']
      exact testBit_lt_countr_zero _ _ _ hjlt

/-- C4: for every canonical state, `first_one` returns the lowest index in
`[0, N)` whose bit is one, and the sentinel `N` when `none()` holds; the
value is computed by the accumulating trailing-zero scan `firstAux`, which
is the verbatim translation of `first_func_impl`. -/
theorem first_one_spec (N : Nat) (s : List Nat) (hN : 0 < N)
    (hwf : WF N s) (hc : Canonical N s) :
    (BitSet.none N s = true → BitSet.first_one N s = N) ∧
    (BitSet.none N s = false →
      BitSet.first_one N s < N ∧ bitAt s (BitSet.first_one N s) = true ∧
      ∀ j, j < BitSet.first_one N s → bitAt s j = false) := by
  constructor
  · intro hnone
    exact first_one_eq_N_of_zero N s ((none_iff_all_zero N s).mp hnone)
  · intro hnone
    have hex : ∃ c ∈ s, c ≠ 0 := by
      by_contra hall
      push_neg at hall
      have : BitSet.none N s = true := (none_iff_all_zero N s).mpr hall
      simp [this] at hnone
    exact first_one_found N s hN hwf hc hex

/-- Witness for `first_one_spec` at `N = 8`, storage `0b00110101`. -/
theorem first_one_spec_witness :
    (0 < 8 ∧ WF 8 [53] ∧ Canonical 8 [53]) ∧
    (BitSet.none 8 [53] = false →
      BitSet.first_one 8 [53] < 8 ∧ bitAt [53] (BitSet.first_one 8 [53]) = true ∧
      ∀ j, j < BitSet.first_one 8 [53] → bitAt [53] j = false) :=
  ⟨⟨by decide, by decide, by decide⟩,
    (first_one_spec 8 [53] (by decide) (by decide) (by decide)).2⟩

theorem mem_getD_index (s : List Nat) (c : Nat) (h : c ∈ s) :
    ∃ k, k < s.length ∧ s.getD k 0 = c := by
  induction s with
  | nil => simp at h
  | cons a t ih =>
    rcases List.mem_cons.mp h with rfl | h
    · exact ⟨0, by simp, rfl⟩
    · obtain ⟨k, hk, hck⟩ := ih h
      exact ⟨k + 1, by simpa using hk, by simpa using hck⟩

/-- A chunk whose live positions are all ones has a full trailing-one run. -/
theorem chunk_all_ones_cto {N : Nat} {s : List Nat} (hN : 0 < N)
    (hlen : s.length = NUM_CHUNKS N)
    (hbits : ∀ i, i < N → bitAt s i = true)
    (k : Nat) (hk : k < s.length)
    (hglobal : ∀ j, j < innerW N → innerW N * k + j < N) :
    countr_one (innerW N) (s.getD k 0) = innerW N := by
  apply countr_one_eq_w
  intro j hj
  rw [← bitAt_decomp N s k j hN hlen hk hj]
  exact hbits _ (hglobal j hj)

/-- C5 helper, part 1: on a canonical state whose live bits are all one, the
scan runs into the padding boundary and returns exactly `N`. -/
theorem first_zero_eq_N_of_all_ones (N : Nat) (s : List Nat) (hN : 0 < N)
    (hwf : WF N s) (hc : Canonical N s)
    (hbits : ∀ i, i < N → bitAt s i = true) :
    BitSet.first_zero N s = N := by
  obtain ⟨hlen, hbound⟩ := hwf
  have hWpos := innerW_pos N
  have hcover := chunks_cover hN
  have hNCpos := NUM_CHUNKS_pos hN
  rcases Nat.eq_or_lt_of_le (lastLive_le_innerW hN) with hLW | hLW
  · apply firstAux_eq_N
    intro c hcs
    obtain ⟨k, hk, hck⟩ := mem_getD_index s c hcs
    rw [← hck]
    apply chunk_all_ones_cto hN hlen hbits k hk
    intro j hj
    rcases le_or_lt N 64 with hsm | hbig
    · have h1 := NUM_CHUNKS_eq_one hN hsm
      have hLN := lastLive_eq hN hsm
      have hk0 : k = 0 := by rw [hlen, h1] at hk; omega
      rw [hk0, Nat.mul_zero, Nat.zero_add]; omega
    · have hW64 := innerW_eq_64 hbig
      rw [hW64] at hj ⊢
      rw [hlen] at hk
      omega
  · have hmulti : ∀ k, k < NUM_CHUNKS N - 1 →
        countr_one (innerW N) (s.getD k 0) = innerW N := by
      intro k hkl
      have h64 : 64 < N := by
        by_contra hcon; push_neg at hcon
        have := NUM_CHUNKS_eq_one hN hcon; omega
      have hW64 := innerW_eq_64 h64
      apply chunk_all_ones_cto hN hlen hbits k (by omega)
      intro j hj
      rw [hW64] at hj ⊢
      have := lastLive_pos N
      omega
    have hlast_lt : s.getD (NUM_CHUNKS N - 1) 0 < 2 ^ lastLive N :=
      canonical_last hlen hc
    have hkNC : NUM_CHUNKS N - 1 < s.length := by omega
    have hlastbits : ∀ j, j < lastLive N →
        (s.getD (NUM_CHUNKS N - 1) 0).testBit j = true := by
      intro j hjL
      rw [← bitAt_decomp N s (NUM_CHUNKS N - 1) j hN hlen hkNC (by omega)]
      apply hbits
      rcases le_or_lt N 64 with hsm | hbig
      · have h1 := NUM_CHUNKS_eq_one hN hsm
        have hLN := lastLive_eq hN hsm
        rw [h1]
        simp only [Nat.sub_self, Nat.mul_zero, Nat.zero_add]
        omega
      · have hW64 := innerW_eq_64 hbig
        rw [hW64]; omega
    have hctoL : countr_one (innerW N) (s.getD (NUM_CHUNKS N - 1) 0) = lastLive N := by
      have hb0 : (s.getD (NUM_CHUNKS N - 1) 0).testBit (lastLive N) = false :=
        Nat.testBit_lt_two_pow hlast_lt
      have hle := countr_one_le_of_testBit (innerW N) _ _ hb0
      rcases Nat.lt_or_ge (countr_one (innerW N) (s.getD (NUM_CHUNKS N - 1) 0))
          (lastLive N) with hl | hg
      · exfalso
        have hat := testBit_at_countr_one (innerW N) (s.getD (NUM_CHUNKS N - 1) 0)
          (by omega)
        rw [hlastbits _ hl] at hat
        simp at hat
      · omega
    have hfex : ∃ c ∈ s, countr_one (innerW N) c ≠ innerW N :=
      ⟨s.getD (NUM_CHUNKS N - 1) 0, getD_mem s _ 0 hkNC, by omega⟩
    obtain ⟨k, hk, hne, hbefore, heq⟩ :=
      firstAux_found N (innerW N) (countr_one (innerW N)) s 0 hfex
    have hkeq : k = NUM_CHUNKS N - 1 := by
      have hk' : k < NUM_CHUNKS N := by rw [hlen] at hk; omega
      by_contra hnee
      exact hne (hmulti k (by omega))
    have hval : BitSet.first_zero N s =
        0 + (innerW N * k + countr_one (innerW N) (s.getD k 0)) := heq
    rw [hkeq, hctoL] at hval
    rcases le_or_lt N 64 with hsm | hbig
    · have h1 := NUM_CHUNKS_eq_one hN hsm
      have hLN := lastLive_eq hN hsm
      rw [h1] at hval
      simp only [Nat.sub_self, Nat.mul_zero, Nat.zero_add] at hval
      omega
    · have hW64 := innerW_eq_64 hbig
      rw [hW64] at hval
      omega

/-- C5 helper, part 2: when some live bit is zero the scan returns the least
zero index, which lies below `N`. -/
theorem first_zero_found (N : Nat) (s : List Nat) (hN : 0 < N)
    (hwf : WF N s) (hex : ∃ i, i < N ∧ bitAt s i = false) :
    BitSet.first_zero N s < N ∧ bitAt s (BitSet.first_zero N s) = false ∧
      ∀ j, j < BitSet.first_zero N s → bitAt s j = true := by
  obtain ⟨hlen, hbound⟩ := hwf
  have hWpos : 0 < innerW N := innerW_pos N
  obtain ⟨i0, hi0N, hbit0⟩ := hex
  obtain ⟨k0, j0, hi0eq, hj0, hk0NC⟩ := index_decomp i0 hN hi0N
  have hk0len : k0 < s.length := by rw [hlen]; exact hk0NC
  have hb0 : (s.getD k0 0).testBit j0 = false := by
    rw [← bitAt_decomp N s k0 j0 hN hlen hk0len hj0, ← hi0eq]
    exact hbit0
  have hcto0 : countr_one (innerW N) (s.getD k0 0) ≤ j0 :=
    countr_one_le_of_testBit _ _ _ hb0
  have hfex : ∃ c ∈ s, countr_one (innerW N) c ≠ innerW N :=
    ⟨s.getD k0 0, getD_mem s _ 0 hk0len, by omega⟩
  obtain ⟨k, hk, hne, hbefore, heq⟩ :=
    firstAux_found N (innerW N) (countr_one (innerW N)) s 0 hfex
  have ht_le := countr_one_le (innerW N) (s.getD k 0)
  set t := countr_one (innerW N) (s.getD k 0) with ht_def
  have ht : t < innerW N := by omega
  have hres : BitSet.first_zero N s = innerW N * k + t := by
    have h0 : BitSet.first_zero N s = 0 + (innerW N * k + t) := heq
    omega
  have hkk0 : k ≤ k0 := by
    by_contra hgt; push_neg at hgt
    have := hbefore k0 hgt
    omega
  have hleN : BitSet.first_zero N s ≤ i0 := by
    rw [hres]
    rcases Nat.lt_or_ge k k0 with hl | hg
    · have h1 : innerW N * (k + 1) ≤ innerW N * k0 := Nat.mul_le_mul_left _ hl
      have h2 : innerW N * (k + 1) = innerW N * k + innerW N := by ring
      omega
    · have hkeq : k = k0 := by omega
      rw [hkeq]
      have : t ≤ j0 := by rw [ht_def, hkeq]; exact hcto0
      omega
  refine ⟨by omega, ?_, ?_⟩
  · rw [hres, bitAt_decomp N s k t hN hlen hk ht, ht_def]
    exact testBit_at_countr_one _ _ (by omega)
  · intro j hj
    rw [hres] at hj
    have hj' : j % innerW N < innerW N := Nat.mod_lt _ hWpos
    have hjeq : j = innerW N * (j / innerW N) + j % innerW N :=
      (Nat.div_add_mod j (innerW N)).symm
    have hk'le : j / innerW N ≤ k := by
      by_contra hgt; push_neg at hgt
      have h1 : innerW N * (k + 1) ≤ innerW N * (j / innerW N) :=
        Nat.mul_le_mul_left _ hgt
      have h2 : innerW N * (k + 1) = innerW N * k + innerW N := by ring
      omega
    rcases Nat.lt_or_ge (j / innerW N) k with hlt | hge2
    · rw [hjeq, bitAt_decomp N s (j / innerW N) (j % innerW N) hN hlen (by omega) hj']
      have hbef := hbefore _ hlt
      exact testBit_lt_countr_one _ _ _ (by rw [hbef]; exact hj')
    · have hkk : j / innerW N = k := by omega
      have hjlt : j % innerW N < t := by
        rw [hkk] at hjeq; omega
      rw [hjeq, hkk, bitAt_decomp N s k (j % innerW N) hN hlen hk hj']
      exact testBit_lt_countr_one _ _ _ hjlt

theorem setAll_length (N : Nat) (s : List Nat) (hN : 0 < N) :
    (BitSet.setAll N s).length = NUM_CHUNKS N := by
  unfold BitSet.setAll
  simp
  have := NUM_CHUNKS_pos hN
  omega

theorem setAll_WF (N : Nat) (s : List Nat) (hN : 0 < N) : WF N (BitSet.setAll N s) := by
  refine ⟨setAll_length N s hN, ?_⟩
  intro x hx
  unfold BitSet.setAll at hx
  rcases List.mem_append.mp hx with hx | hx
  · rw [List.eq_of_mem_replicate hx]
    have := Nat.two_pow_pos (innerW N); omega
  · have hxe : x = LAST_MASK N := by simpa using hx
    subst hxe
    rw [LAST_MASK_eq]
    have h1 : 2 ^ lastLive N ≤ 2 ^ innerW N :=
      Nat.pow_le_pow_right (by omega) (lastLive_le_innerW hN)
    have := Nat.two_pow_pos (lastLive N)
    omega

theorem setAll_canonical (N : Nat) (s : List Nat) : Canonical N (BitSet.setAll N s) := by
  unfold Canonical BitSet.setAll
  rw [getLastD_eq_getD]
  have hlen : (List.replicate (NUM_CHUNKS N - 1) (2 ^ innerW N - 1) ++ [LAST_MASK N]).length
      = NUM_CHUNKS N - 1 + 1 := by simp
  rw [hlen]
  simp only [Nat.add_sub_cancel]
  rw [getD_replicate_append_last]
  exact LAST_MASK_lt N

theorem setAll_bits (N : Nat) (s : List Nat) (hN : 0 < N) :
    ∀ i, i < N → bitAt (BitSet.setAll N s) i = true := by
  intro i hi
  have hNCpos := NUM_CHUNKS_pos hN
  have hlen := setAll_length N s hN
  obtain ⟨k, j, hieq, hj, hkNC⟩ := index_decomp i hN hi
  rw [hieq, bitAt_decomp N _ k j hN hlen (by omega) hj]
  rcases Nat.lt_or_ge k (NUM_CHUNKS N - 1) with hl | hg
  · unfold BitSet.setAll
    rw [getD_replicate_append _ _ _ _ _ hl, Nat.testBit_two_pow_sub_one]
    simp [hj]
  · have hkeq : k = NUM_CHUNKS N - 1 := by omega
    have hjL : j < lastLive N := by
      rcases le_or_lt N 64 with hsm | hbig
      · have h1 := NUM_CHUNKS_eq_one hN hsm
        have hLN := lastLive_eq hN hsm
        have hk0 : k = 0 := by omega
        rw [hk0, Nat.mul_zero, Nat.zero_add] at hieq
        omega
      · have hW64 := innerW_eq_64 hbig
        have hcover := chunks_cover hN
        rw [hW64, hkeq] at hieq
        omega
    unfold BitSet.setAll
    rw [hkeq, getD_replicate_append_last, LAST_MASK_eq, Nat.testBit_two_pow_sub_one]
    simp [hjL]

theorem first_zero_resetAll (N : Nat) (s : List Nat) (hN : 0 < N)
    (hlen : s.length = NUM_CHUNKS N) :
    BitSet.first_zero N (BitSet.resetAll N s) = 0 := by
  have hWpos := innerW_pos N
  cases s with
  | nil =>
    have := NUM_CHUNKS_pos hN
    simp at hlen
    omega
  | cons c rest =>
    simp only [BitSet.first_zero, BitSet.resetAll, List.map_cons, firstAux, countr_one_zero]
    rw [if_pos (by omega)]

/-- C5: for every canonical state, `first_zero` returns the lowest index in
`[0, N)` whose bit is zero, and exactly `N` (the padding boundary) when all
live bits are one; in particular the all-one container (the bulk `set()`
state) yields `N` and the all-zero container (the bulk `reset()` state)
yields `0`. -/
theorem first_zero_spec (N : Nat) (s : List Nat) (hN : 0 < N)
    (hwf : WF N s) (hc : Canonical N s) :
    ((∀ i, i < N → bitAt s i = true) → BitSet.first_zero N s = N) ∧
    ((∃ i, i < N ∧ bitAt s i = false) →
      BitSet.first_zero N s < N ∧ bitAt s (BitSet.first_zero N s) = false ∧
      ∀ j, j < BitSet.first_zero N s → bitAt s j = true) ∧
    BitSet.first_zero N (BitSet.setAll N s) = N ∧
    BitSet.first_zero N (BitSet.resetAll N s) = 0 := by
  refine ⟨fun h => first_zero_eq_N_of_all_ones N s hN hwf hc h,
    fun h => first_zero_found N s hN hwf h, ?_, ?_⟩
  · exact first_zero_eq_N_of_all_ones N (BitSet.setAll N s) hN (setAll_WF N s hN)
      (setAll_canonical N s) (setAll_bits N s hN)
  · exact first_zero_resetAll N s hN hwf.1

/-- Witness for `first_zero_spec` at `N = 8`, storage `0b00110101`. -/
theorem first_zero_spec_witness :
    (0 < 8 ∧ WF 8 [53] ∧ Canonical 8 [53]) ∧
    (BitSet.first_zero 8 (BitSet.setAll 8 [53]) = 8 ∧
     BitSet.first_zero 8 (BitSet.resetAll 8 [53]) = 0) :=
  ⟨⟨by decide, by decide, by decide⟩,
    ⟨(first_zero_spec 8 [53] (by decide) (by decide) (by decide)).2.2.1,
     (first_zero_spec 8 [53] (by decide) (by decide) (by decide)).2.2.2⟩⟩

/-! Index geometry shared by the whole-container predicates. -/

theorem global_nonlast {N : Nat} (hN : 0 < N) {k b : Nat} (hk : k < NUM_CHUNKS N - 1)
    (hb : b < innerW N) : innerW N * k + b < N := by
  have h64 : 64 < N := by
    by_contra hcon; push_neg at hcon
    have := NUM_CHUNKS_eq_one hN hcon; omega
  have hW64 := innerW_eq_64 h64
  have hcover := chunks_cover hN
  have := lastLive_pos N
  rw [hW64] at hb ⊢
  omega

theorem global_last {N : Nat} (hN : 0 < N) {b : Nat} (hb : b < lastLive N) :
    innerW N * (NUM_CHUNKS N - 1) + b < N := by
  rcases le_or_lt N 64 with hsm | hbig
  · have h1 := NUM_CHUNKS_eq_one hN hsm
    have hLN := lastLive_eq hN hsm
    rw [h1]
    simp only [Nat.sub_self, Nat.mul_zero, Nat.zero_add]
    omega
  · have hW64 := innerW_eq_64 hbig
    have hcover := chunks_cover hN
    rw [hW64]
    omega

theorem shift_last {N : Nat} (hN : 0 < N) {j : Nat} (hj : j < innerW N)
    (hlt : innerW N * (NUM_CHUNKS N - 1) + j < N) : j < lastLive N := by
  rcases le_or_lt N 64 with hsm | hbig
  · have h1 := NUM_CHUNKS_eq_one hN hsm
    have hLN := lastLive_eq hN hsm
    rw [h1] at hlt
    simp only [Nat.sub_self, Nat.mul_zero, Nat.zero_add] at hlt
    omega
  · have hW64 := innerW_eq_64 hbig
    have hcover := chunks_cover hN
    rw [hW64] at hlt
    omega

theorem all_eq_words (N : Nat) (s : List Nat) :
    BitSet.all N s = true ↔
      ((∀ c ∈ s.dropLast, c = 2 ^ innerW N - 1) ∧ s.getLastD 0 = LAST_MASK N) := by
  simp [BitSet.all, List.all_eq_true]

/-- C3: for every canonical state, `all()` holds exactly when every live bit
is one, and concretely exactly when every word but the last is the maximum
of `Inner_t` and the last word equals `LAST_MASK`. -/
theorem all_spec (N : Nat) (s : List Nat) (hN : 0 < N)
    (hwf : WF N s) (hc : Canonical N s) :
    (BitSet.all N s = true ↔ ∀ i, i < N → bitAt s i = true) ∧
    (BitSet.all N s = true ↔
      ((∀ c ∈ s.dropLast, c = 2 ^ innerW N - 1) ∧ s.getLastD 0 = LAST_MASK N)) := by
  obtain ⟨hlen, hbound⟩ := hwf
  have hNCpos := NUM_CHUNKS_pos hN
  refine ⟨?_, all_eq_words N s⟩
  rw [all_eq_words N s]
  constructor
  · rintro ⟨hdrop, hlast⟩ i hi
    obtain ⟨k, j, hieq, hj, hkNC⟩ := index_decomp i hN hi
    rw [hieq, bitAt_decomp N s k j hN hlen (by omega) hj]
    rcases Nat.lt_or_ge k (NUM_CHUNKS N - 1) with hl | hg
    · have hkd : k < s.length - 1 := by omega
      have hmem : s.dropLast.getD k 0 ∈ s.dropLast :=
        getD_mem _ k 0 (by rw [List.length_dropLast]; omega)
      have hval : s.getD k 0 = 2 ^ innerW N - 1 := by
        rw [← getD_dropLast s k 0 hkd]
        exact hdrop _ hmem
      rw [hval, Nat.testBit_two_pow_sub_one]
      simp [hj]
    · have hkeq : k = NUM_CHUNKS N - 1 := by omega
      have hjL : j < lastLive N := by
        apply shift_last hN hj
        rw [← hkeq]; omega
      have hval : s.getD k 0 = LAST_MASK N := by
        rw [hkeq, ← hlen, ← getLastD_eq_getD s 0]
        exact hlast
      rw [hval, LAST_MASK_eq, Nat.testBit_two_pow_sub_one]
      simp [hjL]
  · intro hbits
    constructor
    · intro c hcs
      obtain ⟨k, hk, hck⟩ := mem_getD_index s.dropLast c hcs
      rw [List.length_dropLast] at hk
      have hck' : s.getD k 0 = c := by rw [← getD_dropLast s k 0 hk]; exact hck
      have hcbound : s.getD k 0 < 2 ^ innerW N :=
        hbound _ (getD_mem s k 0 (by omega))
      rw [← hck']
      apply Nat.eq_of_testBit_eq
      intro b
      rw [Nat.testBit_two_pow_sub_one]
      rcases Nat.lt_or_ge b (innerW N) with hb | hb
      · simp only [hb, decide_True]
        rw [← bitAt_decomp N s k b hN hlen (by omega) hb]
        exact hbits _ (global_nonlast hN (by rw [hlen] at hk; omega) hb)
      · simp only [Nat.not_lt.mpr hb, decide_False]
        apply Nat.testBit_lt_two_pow
        calc s.getD k 0 < 2 ^ innerW N := hcbound
        _ ≤ 2 ^ b := Nat.pow_le_pow_right (by omega) hb
    · rw [getLastD_eq_getD s 0, hlen, LAST_MASK_eq]
      have hlast_lt : s.getD (NUM_CHUNKS N - 1) 0 < 2 ^ lastLive N :=
        canonical_last hlen hc
      apply Nat.eq_of_testBit_eq
      intro b
      rw [Nat.testBit_two_pow_sub_one]
      rcases Nat.lt_or_ge b (lastLive N) with hb | hb
      · simp only [hb, decide_True]
        have hbW : b < innerW N := lt_of_lt_of_le hb (lastLive_le_innerW hN)
        rw [← bitAt_decomp N s (NUM_CHUNKS N - 1) b hN hlen (by omega) hbW]
        exact hbits _ (global_last hN hb)
      · simp only [Nat.not_lt.mpr hb, decide_False]
        apply Nat.testBit_lt_two_pow
        calc s.getD (NUM_CHUNKS N - 1) 0 < 2 ^ lastLive N := hlast_lt
        _ ≤ 2 ^ b := Nat.pow_le_pow_right (by omega) hb

/-- Witness for `all_spec` at `N = 8`, storage `0b11111111`. -/
theorem all_spec_witness :
    (0 < 8 ∧ WF 8 [255] ∧ Canonical 8 [255]) ∧
    (BitSet.all 8 [255] = true ↔ ∀ i, i < 8 → bitAt [255] i = true) :=
  ⟨⟨by decide, by decide, by decide⟩,
    (all_spec 8 [255] (by decide) (by decide) (by decide)).1⟩

/-! Canonicity of the modifiers, and the flip involution. -/

theorem flipGo_length (N : Nat) : ∀ (s : List Nat) (i : Nat),
    (BitSet.flipGo N i s).length = s.length := by
  intro s
  induction s with
  | nil => intro i; rfl
  | cons v rest ih => intro i; simp [BitSet.flipGo, ih]

theorem getD_flipGo (N : Nat) : ∀ (s : List Nat) (i k : Nat), k < s.length →
    (BitSet.flipGo N i s).getD k 0 =
      if i + k = NUM_CHUNKS N - 1 then ((2 ^ 64 - 1) - s.getD k 0) &&& LAST_MASK N
      else (2 ^ 64 - 1) - s.getD k 0 := by
  intro s
  induction s with
  | nil => intro i k hk; simp at hk
  | cons v rest ih =>
    intro i k hk
    cases k with
    | zero => simp [BitSet.flipGo]
    | succ k =>
      simp only [BitSet.flipGo, List.getD_cons_succ]
      rw [ih (i + 1) k (by simpa using hk)]
      have hix : i + 1 + k = i + (k + 1) := by omega
      rw [hix]

theorem sub_one_sub_mod (L v : Nat) (hL : L ≤ 64) (hv : v < 2 ^ L) :
    ((2 ^ 64 - 1) - v) % 2 ^ L = (2 ^ L - 1) - v := by
  obtain ⟨c, hc⟩ : 2 ^ L ∣ 2 ^ 64 := pow_dvd_pow 2 hL
  have hcpos : 0 < c := by
    rcases Nat.eq_zero_or_pos c with h0 | h
    · rw [h0, Nat.mul_zero] at hc; simp at hc
    · exact h
  obtain ⟨c', rfl⟩ : ∃ c', c = c' + 1 := ⟨c - 1, by omega⟩
  have hmul : 2 ^ L * (c' + 1) = 2 ^ L * c' + 2 ^ L := by ring
  have hApos := Nat.two_pow_pos L
  have hkey : (2 ^ 64 - 1) - v = 2 ^ L * c' + ((2 ^ L - 1) - v) := by omega
  rw [hkey, Nat.mul_add_mod]
  exact Nat.mod_eq_of_lt (by omega)

theorem flip_last_invol (N : Nat) (v : Nat) (hv : v < 2 ^ lastLive N) :
    ((2 ^ 64 - 1) - (((2 ^ 64 - 1) - v) &&& LAST_MASK N)) &&& LAST_MASK N = v := by
  rw [LAST_MASK_eq]
  have hL := lastLive_le_64 N
  have hApos := Nat.two_pow_pos (lastLive N)
  simp only [Nat.and_pow_two_sub_one_eq_mod]
  rw [sub_one_sub_mod _ v hL hv, sub_one_sub_mod _ _ hL (by omega)]
  omega

theorem flipGo_flipGo (N : Nat) : ∀ (s : List Nat) (i : Nat),
    (∀ k, k < s.length →
      (i + k = NUM_CHUNKS N - 1 → s.getD k 0 < 2 ^ lastLive N) ∧
      (i + k ≠ NUM_CHUNKS N - 1 → s.getD k 0 < 2 ^ 64)) →
    BitSet.flipGo N i (BitSet.flipGo N i s) = s := by
  intro s
  induction s with
  | nil => intro i h; rfl
  | cons v rest ih =>
    intro i h
    have hv := h 0 (by simp)
    simp only [Nat.add_zero, List.getD_cons_zero] at hv
    have htail : ∀ k, k < rest.length →
        ((i + 1) + k = NUM_CHUNKS N - 1 → rest.getD k 0 < 2 ^ lastLive N) ∧
        ((i + 1) + k ≠ NUM_CHUNKS N - 1 → rest.getD k 0 < 2 ^ 64) := by
      intro k hk
      refine ⟨fun hcond => ?_, fun hcond => ?_⟩
      · have := (h (k + 1) (by simpa using hk)).1 (by omega)
        simpa using this
      · have := (h (k + 1) (by simpa using hk)).2 (by omega)
        simpa using this
    by_cases hi : i = NUM_CHUNKS N - 1
    · simp only [BitSet.flipGo, if_pos hi]
      rw [flip_last_invol N v (hv.1 hi), ih (i + 1) htail]
    · simp only [BitSet.flipGo, if_neg hi]
      have hb := hv.2 hi
      have hhead : (2 ^ 64 - 1) - ((2 ^ 64 - 1) - v) = v := by omega
      rw [hhead, ih (i + 1) htail]

theorem flip_canonical (N : Nat) (s : List Nat) (hN : 0 < N)
    (hlen : s.length = NUM_CHUNKS N) : Canonical N (BitSet.flip N s) := by
  unfold Canonical BitSet.flip
  have hNCpos := NUM_CHUNKS_pos hN
  rw [getLastD_eq_getD, flipGo_length, hlen]
  rw [getD_flipGo N s 0 (NUM_CHUNKS N - 1) (by omega)]
  rw [if_pos (by omega)]
  rw [LAST_MASK_eq]
  have := Nat.two_pow_pos (lastLive N)
  exact Nat.and_lt_two_pow _ (by omega)

theorem resetAll_canonical (N : Nat) (s : List Nat) : Canonical N (BitSet.resetAll N s) := by
  unfold Canonical BitSet.resetAll
  rw [getLastD_eq_getD, getD_map_zero]
  exact Nat.two_pow_pos (lastLive N)

theorem reset_canonical (N : Nat) (s : List Nat) (pos : Nat) (hN : 0 < N)
    (hlen : s.length = NUM_CHUNKS N) (hc : Canonical N s) :
    Canonical N (BitSet.reset N s pos) := by
  have hNCpos := NUM_CHUNKS_pos hN
  have hMlt := LAST_MASK_lt N
  unfold Canonical BitSet.reset
  by_cases h64 : N > 64
  · rw [if_pos h64]
    by_cases hch : pos / 64 = NUM_CHUNKS N - 1
    · rw [if_pos hch]
      rw [getLastD_eq_getD, List.length_set, hlen, ← hch,
        getD_set_eq s _ _ 0 (by rw [hlen]; omega)]
      have h1 : s.getD (pos / 64) 0 &&&
          (((2 ^ 64 - 1) - (1 <<< (pos % 64))) &&& LAST_MASK N) ≤
          ((2 ^ 64 - 1) - (1 <<< (pos % 64))) &&& LAST_MASK N := Nat.and_le_right
      have h2 : ((2 ^ 64 - 1) - (1 <<< (pos % 64))) &&& LAST_MASK N ≤ LAST_MASK N :=
        Nat.and_le_right
      omega
    · rw [if_neg hch]
      rw [getLastD_eq_getD, List.length_set, hlen, getD_set_ne s _ _ _ 0 hch]
      unfold Canonical at hc
      rw [getLastD_eq_getD, hlen] at hc
      exact hc
  · rw [if_neg h64]
    have h1 : NUM_CHUNKS N = 1 := NUM_CHUNKS_eq_one hN (by omega)
    rw [getLastD_eq_getD, List.length_set, hlen, h1]
    simp only [Nat.sub_self]
    rw [getD_set_eq s 0 _ 0 (by rw [hlen, h1]; omega)]
    have ha : s.getD 0 0 &&& (((2 ^ 64 - 1) - (1 <<< pos)) &&& LAST_MASK N) ≤
        ((2 ^ 64 - 1) - (1 <<< pos)) &&& LAST_MASK N := Nat.and_le_right
    have hb : ((2 ^ 64 - 1) - (1 <<< pos)) &&& LAST_MASK N ≤ LAST_MASK N :=
      Nat.and_le_right
    omega

theorem set_canonical (N : Nat) (s : List Nat) (pos : Nat) (value : Bool) (hN : 0 < N)
    (hpos : pos < N) (hlen : s.length = NUM_CHUNKS N) (hc : Canonical N s) :
    Canonical N (BitSet.set N s pos value) := by
  unfold BitSet.set
  by_cases hv : value = false
  · rw [if_pos hv]; exact reset_canonical N s pos hN hlen hc
  · rw [if_neg hv]
    have hNCpos := NUM_CHUNKS_pos hN
    unfold Canonical at hc ⊢
    rw [getLastD_eq_getD, hlen] at hc
    by_cases h64 : N > 64
    · rw [if_pos h64]
      rw [getLastD_eq_getD, List.length_set, hlen]
      by_cases hch : pos / 64 = NUM_CHUNKS N - 1
      · rw [← hch, getD_set_eq s _ _ 0 (by rw [hlen]; omega)]
        rw [← hch] at hc
        have hcover := chunks_cover hN
        have hdm := Nat.div_add_mod pos 64
        have hshift : pos % 64 < lastLive N := by omega
        rw [Nat.shiftLeft_eq, Nat.one_mul]
        exact Nat.or_lt_two_pow hc (Nat.pow_lt_pow_right (by omega) hshift)
      · rw [getD_set_ne s _ _ _ 0 hch]
        exact hc
    · rw [if_neg h64]
      have h1 : NUM_CHUNKS N = 1 := NUM_CHUNKS_eq_one hN (by omega)
      rw [getLastD_eq_getD, List.length_set, hlen, h1]
      simp only [Nat.sub_self]
      rw [getD_set_eq s 0 _ 0 (by rw [hlen, h1]; omega)]
      rw [h1] at hc
      simp only [Nat.sub_self] at hc
      have hLN : lastLive N = N := lastLive_eq hN (by omega)
      have hposW : pos < innerW N := lt_of_lt_of_le hpos (le_innerW (by omega))
      have hshift : (1 <<< pos) % 2 ^ innerW N = 2 ^ pos := by
        rw [Nat.shiftLeft_eq, Nat.one_mul]
        exact Nat.mod_eq_of_lt (Nat.pow_lt_pow_right (by omega) hposW)
      rw [hshift]
      refine Nat.or_lt_two_pow hc ?_
      rw [hLN]
      exact Nat.pow_lt_pow_right (by omega) hpos

/-- C6: every mutating operation — bulk `set()`, single-bit `set(pos, value)`
with `pos < N`, `flip()`, bulk `reset()`, and `reset(pos)` with `pos < N` —
preserves the canonical zero-padding invariant. -/
theorem mutators_preserve_canonical (N : Nat) (s : List Nat) (hN : 0 < N)
    (hwf : WF N s) (hc : Canonical N s) :
    Canonical N (BitSet.setAll N s) ∧
    (∀ pos value, pos < N → Canonical N (BitSet.set N s pos value)) ∧
    Canonical N (BitSet.flip N s) ∧
    Canonical N (BitSet.resetAll N s) ∧
    (∀ pos, pos < N → Canonical N (BitSet.reset N s pos)) :=
  ⟨setAll_canonical N s,
   fun pos value hpos => set_canonical N s pos value hN hpos hwf.1 hc,
   flip_canonical N s hN hwf.1,
   resetAll_canonical N s,
   fun pos _ => reset_canonical N s pos hN hwf.1 hc⟩

/-- Witness for `mutators_preserve_canonical` at `N = 8`, storage `0b00110101`. -/
theorem mutators_preserve_canonical_witness :
    (0 < 8 ∧ WF 8 [53] ∧ Canonical 8 [53]) ∧
    (Canonical 8 (BitSet.setAll 8 [53]) ∧
     (∀ pos value, pos < 8 → Canonical 8 (BitSet.set 8 [53] pos value)) ∧
     Canonical 8 (BitSet.flip 8 [53]) ∧
     Canonical 8 (BitSet.resetAll 8 [53]) ∧
     (∀ pos, pos < 8 → Canonical 8 (BitSet.reset 8 [53] pos))) :=
  ⟨⟨by decide, by decide, by decide⟩,
    mutators_preserve_canonical 8 [53] (by decide) (by decide) (by decide)⟩

/-- C10: the bulk modifiers `set()`, `flip()` and `reset()` establish the
canonical zero-padding invariant from any storage state whatsoever, even one
whose padding bits are nonzero. -/
theorem bulk_establish_canonical (N : Nat) (s : List Nat) (hN : 0 < N)
    (hwf : WF N s) :
    Canonical N (BitSet.setAll N s) ∧ Canonical N (BitSet.flip N s) ∧
    Canonical N (BitSet.resetAll N s) :=
  ⟨setAll_canonical N s, flip_canonical N s hN hwf.1, resetAll_canonical N s⟩

/-- Witness for `bulk_establish_canonical` at `N = 5` on the NON-canonical
storage `[255]` (padding bits 5..7 set, as a violating release-build
construction would leave them). -/
theorem bulk_establish_canonical_witness :
    (0 < 5 ∧ WF 5 [255] ∧ ¬Canonical 5 [255]) ∧
    (Canonical 5 (BitSet.setAll 5 [255]) ∧ Canonical 5 (BitSet.flip 5 [255]) ∧
     Canonical 5 (BitSet.resetAll 5 [255])) :=
  ⟨⟨by decide, by decide, by decide⟩,
    bulk_establish_canonical 5 [255] (by decide) (by decide)⟩

/-- C8: `flip()` is self-inverse: applied twice to a canonical state it
returns the original storage word for word. -/
theorem flip_flip (N : Nat) (s : List Nat) (hN : 0 < N)
    (hwf : WF N s) (hc : Canonical N s) :
    BitSet.flip N (BitSet.flip N s) = s := by
  unfold BitSet.flip
  apply flipGo_flipGo
  intro k hk
  constructor
  · intro hcond
    have hkeq : k = NUM_CHUNKS N - 1 := by omega
    rw [hkeq]
    exact canonical_last hwf.1 hc
  · intro hcond
    have hb := hwf.2 _ (getD_mem s k 0 hk)
    calc s.getD k 0 < 2 ^ innerW N := hb
    _ ≤ 2 ^ 64 := Nat.pow_le_pow_right (by omega) (innerW_le_64 N)

/-- Witness for `flip_flip` at `N = 8`, storage `0b00110101`. -/
theorem flip_flip_witness :
    (0 < 8 ∧ WF 8 [53] ∧ Canonical 8 [53]) ∧
    BitSet.flip 8 (BitSet.flip 8 [53]) = [53] :=
  ⟨⟨by decide, by decide, by decide⟩,
    flip_flip 8 [53] (by decide) (by decide) (by decide)⟩

theorem any_eq_not_none (N : Nat) (s : List Nat) :
    BitSet.any N s = !BitSet.none N s := by
  unfold BitSet.any BitSet.none
  induction s with
  | nil => rfl
  | cons c rest ih =>
    simp only [List.any_cons, List.all_cons, Bool.not_and, ih]
    simp [bne]

/-- C9: `any()` is the negation of `none()`, `all()` implies `any()`, and
`all()` and `none()` are never simultaneously true. -/
theorem any_none_all_relation (N : Nat) (s : List Nat) (hN : 0 < N)
    (hwf : WF N s) :
    BitSet.any N s = !BitSet.none N s ∧
    (BitSet.all N s = true → BitSet.any N s = true) ∧
    ¬(BitSet.all N s = true ∧ BitSet.none N s = true) := by
  have hmem : s.getLastD 0 ∈ s := by
    rw [getLastD_eq_getD]
    apply getD_mem
    rw [hwf.1]
    have := NUM_CHUNKS_pos hN
    omega
  have hMpos := LAST_MASK_pos N
  refine ⟨any_eq_not_none N s, ?_, ?_⟩
  · intro hall
    obtain ⟨hdrop, hlast⟩ := (all_eq_words N s).mp hall
    unfold BitSet.any
    rw [List.any_eq_true]
    refine ⟨s.getLastD 0, hmem, ?_⟩
    rw [hlast]
    simp only [bne_iff_ne, ne_eq]
    omega
  · rintro ⟨hall, hnone⟩
    obtain ⟨hdrop, hlast⟩ := (all_eq_words N s).mp hall
    have hz := (none_iff_all_zero N s).mp hnone _ hmem
    rw [hlast] at hz
    omega

/-- Witness for `any_none_all_relation` at `N = 8`, storage `0b00110101`. -/
theorem any_none_all_relation_witness :
    (0 < 8 ∧ WF 8 [53]) ∧
    (BitSet.any 8 [53] = !BitSet.none 8 [53] ∧
     (BitSet.all 8 [53] = true → BitSet.any 8 [53] = true) ∧
     ¬(BitSet.all 8 [53] = true ∧ BitSet.none 8 [53] = true)) :=
  ⟨⟨by decide, by decide⟩, any_none_all_relation 8 [53] (by decide) (by decide)⟩

/-! Divergences of the code from the specified behaviour. -/

/-- C1 (code bug): at `N = 65` the reachable state `[2, 0]` — obtained from
the default container by bulk `reset()` then `set(1)` — makes `operator[]`
and `test` report bit 0 as set although the bit at logical index 0 is zero:
the `N > 64` branch of `operator[]` converts the whole shifted word to
`bool` without masking with `0x1`. -/
theorem opIndex_bug_N65 :
    BitSet.set 65 (BitSet.resetAll 65 (BitSet.mkDefault 65)) 1 true = [2, 0] ∧
    BitSet.opIndex 65 [2, 0] 0 = true ∧
    BitSet.test 65 [2, 0] 0 = true ∧
    bitAt [2, 0] 0 = false := by decide

/-- C2 (code bug): at `N = 65`, after bulk `reset()` then `set(1)`, the state
is `[2, 0]` with exactly one set bit, so `test(1) = true` and `count() = 1`
hold as claimed, but `test(0)` also returns `true` instead of the claimed
`false`, through the missing `& 0x1` in `operator[]`. -/
theorem reset_set_bug_N65 :
    BitSet.test 65 (BitSet.set 65 (BitSet.resetAll 65 (BitSet.mkDefault 65)) 1 true) 1
      = true ∧
    BitSet.count 65 (BitSet.set 65 (BitSet.resetAll 65 (BitSet.mkDefault 65)) 1 true)
      = 1 ∧
    bitAt (BitSet.set 65 (BitSet.resetAll 65 (BitSet.mkDefault 65)) 1 true) 0 = false ∧
    BitSet.test 65 (BitSet.set 65 (BitSet.resetAll 65 (BitSet.mkDefault 65)) 1 true) 0
      = true := by decide

/-- C7 (code bug): at `N = 66` the supplied words `{0, 4}` set the bit at
global position 66 (at or beyond `N`), yet the debug assertion of the
`N > 64` constructor passes, because the code compares the bit width of the
last word (here 3) against the mask value `LAST_MASK` (here 3) instead of
against the live-bit count (here 2). -/
theorem ctorAssert_bug_N66 :
    BitSet.ctorAssertMulti 66 [0, 4] = true ∧ bitAt [0, 4] 66 = true := by decide
